import Mathlib

set_option maxRecDepth 20000

/-!
Verification of the cparsec parser-combinator engine and its JSON grammar.

The C++ source is embedded shallowly: the input buffer is a `List Char`,
positions are `Nat`, the C++ `int` values are `Int`, and the C++ `double`
values are modelled by exact rationals (a gcd-normalised fraction type
`Frac`, over which the fold computations of the source are transcribed
verbatim). `std::map<std::string, JsonValue>`
is modelled by a key-sorted association list with the same insertion
(`m[k] = v`, last write wins) semantics, keys ordered lexicographically as
`std::string`'s `operator<` orders them. General recursion in the source
(`manyP`, the mutually recursive `jsonP`/`arrayP`/`objectP`) is embedded with
an explicit fuel that is provably sufficient whenever the source terminates.
-/

/-- `ParseState` of the source: a position and the shared immutable input
buffer. -/
structure ParseState where
  pos : Nat
  s : List Char
  deriving DecidableEq, Repr

/-- `ParseResult<T>` of the source: success with a value and the state to
resume from, or failure with an ordered list of expectation labels and the
state at which the failure was produced. -/
inductive ParseResult (T : Type) where
  | success (result : T) (state : ParseState)
  | failure (error : List String) (state : ParseState)
  deriving DecidableEq, Repr

/-- The state carried by a parse result (either variant). -/
def ParseResult.state {T : Type} : ParseResult T → ParseState
  | .success _ st => st
  | .failure _ st => st

/-- Whether a parse result is the success variant. -/
def ParseResult.isSuccess {T : Type} : ParseResult T → Bool
  | .success _ _ => true
  | .failure _ _ => false

/-- `Parser<T>`: a pure function from parse state to parse result. -/
def Parser (T : Type) : Type := ParseState → ParseResult T

/-- `parse(p, s)`: wrap the input into a fresh state at position 0 and run
the parser. -/
def parse {T : Type} (p : Parser T) (inp : List Char) : ParseResult T :=
  p ⟨0, inp⟩

/-- `mapP(p, f)`: map a pure function over the parsed value, propagating
failure untouched. -/
def mapP {A B : Type} (p : Parser A) (f : A → B) : Parser B := fun s =>
  match p s with
  | .failure e st => .failure e st
  | .success r st => .success (f r) st

/-- The variadic `orP(p, ps...)` of the source, with the parser pack as a
list: `orP p []` is `p` itself; otherwise try `p` on the incoming state and,
if it fails, try the rest on the same incoming state. -/
def orP {T : Type} : Parser T → List (Parser T) → Parser T
  | p, [] => p
  | p, q :: ps => fun s =>
    match p s with
    | .failure _ _ => orP q ps s
    | r => r

/-- `pureP(x)`: always succeed with `x`, consuming nothing. -/
def pureP {T : Type} (x : T) : Parser T := fun s => .success x s

/-- `andP(pa, pb, f)`: run `pa`, then `pb` on the state `pa` produced,
then combine the two values with `f`; the first failure propagates. -/
def andP {A B C : Type} (pa : Parser A) (pb : Parser B) (f : A → B → C) :
    Parser C := fun s =>
  match pa s with
  | .failure e st => .failure e st
  | .success ra sa =>
    match pb sa with
    | .failure e st => .failure e st
    | .success rb sb => .success (f ra rb) sb

/-- `leftP(pa, pb)`: sequence and keep the first value. -/
def leftP {A B : Type} (pa : Parser A) (pb : Parser B) : Parser A :=
  andP pa pb (fun a _ => a)

/-- `rightP(pa, pb)`: sequence and keep the second value. -/
def rightP {A B : Type} (pa : Parser A) (pb : Parser B) : Parser B :=
  andP pa pb (fun _ b => b)

/-- The recursion inside `manyP`, with explicit fuel: repeatedly run `p`,
collecting values, until `p` fails; the failing attempt's state is
discarded. Both exits return `success`, exactly as in the source. Fuel
exhaustion (unreachable when `p` consumes on success and the fuel is at
least the remaining input plus one) also stops the loop. -/
def manyRun {T : Type} (p : Parser T) : Nat → ParseState → ParseResult (List T)
  | 0, s => .success [] s
  | n + 1, s =>
    match p s with
    | .failure _ _ => .success [] s
    | .success v s1 =>
      match manyRun p n s1 with
      | .success vs s2 => .success (v :: vs) s2
      | .failure e s2 => .failure e s2

/-- Fuel that suffices for `manyRun` whenever the repeated parser strictly
advances the position on success. -/
def manyFuel (s : ParseState) : Nat := s.s.length + 1 - s.pos

/-- `manyP(p)`: zero-or-more repetition; always succeeds (the failure arm
of `manyRun` is dead code, see `manyRun_isSuccess`). -/
def manyP {T : Type} (p : Parser T) : Parser (List T) := fun s =>
  manyRun p (manyFuel s) s

/-- `someP(p)`: one-or-more repetition, `p` then `manyP p`, prepending. -/
def someP {T : Type} (p : Parser T) : Parser (List T) :=
  andP p (manyP p) (fun r rs => r :: rs)

/-- `idP`: consume one character; at end of input fail with
`"end of file"` without advancing. -/
def idP : Parser Char := fun s =>
  if s.pos = s.s.length then .failure ["end of file"] s
  else .success (s.s.getD s.pos ' ') ⟨s.pos + 1, s.s⟩

/-- `eofP`: succeed (with `true`) exactly at end of input, else fail with
`"expect end of file"`. -/
def eofP : Parser Bool := fun s =>
  if s.pos = s.s.length then .success true s
  else .failure ["expect end of file"] s

/-- `predP(f)`: consume one character via `idP`; if it fails `f`, fail with
the label `"unexpect <char>"` carrying the state `idP` produced. -/
def predP (f : Char → Bool) : Parser Char := fun s =>
  match idP s with
  | .failure e st => .failure e st
  | .success c st =>
    if f c then .success c st
    else .failure ["unexpect " ++ String.mk [c]] st

/-- `charP(c)`: `predP` specialised to equality with `c`. -/
def charP (c : Char) : Parser Char :=
  predP (fun x => c == x)

/-- `oneOfP(s)`: `predP` specialised to membership in `s`, with the
source's or-fold over the characters of `s`. -/
def oneOfP (cs : List Char) : Parser Char :=
  predP (fun c => cs.foldl (fun t x => t || (c == x)) false)

/-- `stringP(str)`: match `str` character by character via `charP`; the
empty string succeeds consuming nothing; on success the whole of `str` is
returned. -/
def stringP : List Char → Parser (List Char)
  | [] => fun s => .success [] s
  | c :: cs => fun s =>
    match charP c s with
    | .failure e st => .failure e st
    | .success _ s1 =>
      match stringP cs s1 with
      | .failure e st => .failure e st
      | .success _ s2 => .success (c :: cs) s2

/-- `space`: one of space, newline, tab. -/
def space : Parser Char := oneOfP [' ', '\n', '\t']

/-- `spaces`: zero or more whitespace characters. -/
def spaces : Parser (List Char) := manyP space

/-- `digitP`: a decimal digit mapped to its numeric value (`c - '0'`). -/
def digitP : Parser Int :=
  mapP (predP (fun c => decide ('0' ≤ c ∧ c ≤ '9')))
    (fun c => (c.toNat : Int) - ('0'.toNat : Int))

/-- `natP`: one or more digits folded left-to-right as `n = n * 10 + d`. -/
def natP : Parser Int :=
  mapP (someP digitP) (fun ns => ns.foldl (fun n i => n * 10 + i) 0)

/-- `intP`: optional leading minus, `orP(mapP(rightP(charP('-'), natP),
negate), natP)`. -/
def intP : Parser Int :=
  orP (mapP (rightP (charP '-') natP) (fun x => -x)) [natP]

/-- An exact rational: the model of the C++ `double` values. The fold
computations of the source are transcribed over `Frac`; every operation
normalises (sign to the numerator, reduced by the gcd), so structural
equality is equality of rationals for the values the parsers build. -/
structure Frac where
  num : Int
  den : Nat
  deriving DecidableEq, Repr

/-- Build the normalised fraction `n / d`. -/
def Frac.norm (n d : Int) : Frac :=
  let s : Int := if d < 0 then -1 else 1
  let n1 := s * n
  let d1 := (s * d).toNat
  let g := n1.gcd (d1 : Int)
  if g = 0 then ⟨0, 1⟩ else ⟨n1 / (g : Int), d1 / g⟩

/-- The integer `n` as a fraction. -/
def Frac.ofInt (n : Int) : Frac := ⟨n, 1⟩

/-- Exact addition. -/
def Frac.add (a b : Frac) : Frac :=
  Frac.norm (a.num * (b.den : Int) + b.num * (a.den : Int))
    ((a.den : Int) * (b.den : Int))

/-- Exact multiplication. -/
def Frac.mul (a b : Frac) : Frac :=
  Frac.norm (a.num * b.num) ((a.den : Int) * (b.den : Int))

/-- Exact division. -/
def Frac.div (a b : Frac) : Frac :=
  Frac.norm (a.num * (b.den : Int)) ((a.den : Int) * b.num)

/-- The loop of the fractional part of `doubleP`: for each digit,
`ans += i * base; base /= 10`. -/
def fracFold : List Int → Frac → Frac → Frac
  | [], ans, _ => ans
  | i :: rest, ans, base =>
    fracFold rest (ans.add ((Frac.ofInt i).mul base)) (base.div (Frac.ofInt 10))

/-- The value of a fractional digit string: the loop started with
`ans = 0`, `base = 0.1`. -/
def fracVal (ns : List Int) : Frac :=
  fracFold ns (Frac.ofInt 0) ((Frac.ofInt 1).div (Frac.ofInt 10))

/-- `doubleP`: either an integer part, a dot and a fractional digit fold
added together, or a bare integer widened to the number type. -/
def doubleP : Parser Frac :=
  orP
    (andP intP
      (rightP (charP '.') (mapP (someP digitP) fracVal))
      (fun x y => (Frac.ofInt x).add y))
    [mapP intP (fun x => Frac.ofInt x)]

/-- `betweenP(lp, rp, p)`: `rightP(lp, leftP(p, rp))`. -/
def betweenP {A B C : Type} (lp : Parser A) (rp : Parser B) (p : Parser C) :
    Parser C :=
  rightP lp (leftP p rp)

/-- `trimP(p)`: `p` surrounded by discarded whitespace on both sides. -/
def trimP {T : Type} (p : Parser T) : Parser T :=
  rightP spaces (leftP p spaces)

/-- `lazyP(f)`: defer obtaining the parser until the state arrives. -/
def lazyP {T : Type} (f : Unit → Parser T) : Parser T := fun s => f () s

/-- `JsonValue`: the six-case tagged variant of the source. Numbers are
modelled by exact rationals; the `std::map` backing an object is modelled
by its key-sorted association list. -/
inductive JsonValue where
  | null
  | bool (b : Bool)
  | num (x : Frac)
  | str (cs : List Char)
  | array (xs : List JsonValue)
  | object (m : List (List Char × JsonValue))

/-- `std::string`'s `operator<`: lexicographic comparison by character
code. -/
def ltKey : List Char → List Char → Bool
  | [], [] => false
  | [], _ :: _ => true
  | _ :: _, [] => false
  | c :: cs, d :: ds =>
    if c.toNat < d.toNat then true
    else if d.toNat < c.toNat then false
    else ltKey cs ds

/-- `m[k] = v` on the key-sorted association list modelling `std::map`:
insert in order, overwriting an equal key. -/
def mapInsert (k : List Char) (v : JsonValue) :
    List (List Char × JsonValue) → List (List Char × JsonValue)
  | [] => [(k, v)]
  | (k1, v1) :: rest =>
    if ltKey k k1 then (k, v) :: (k1, v1) :: rest
    else if ltKey k1 k then (k1, v1) :: mapInsert k v rest
    else (k, v) :: rest

/-- The fold of `objectP`: `for (kv i : xs) m[i.first] = i.second` starting
from the empty map. -/
def buildMap (xs : List (List Char × JsonValue)) :
    List (List Char × JsonValue) :=
  xs.foldl (fun m kv => mapInsert kv.1 kv.2 m) []

/-- `nullP`: the literal `null`, trimmed, mapped to `JsonValue()`. -/
def nullP : Parser JsonValue :=
  trimP (mapP (stringP "null".data) (fun _ => JsonValue.null))

/-- `boolP`: the literals `true` / `false`, trimmed. -/
def boolP : Parser JsonValue :=
  trimP (orP (mapP (stringP "true".data) (fun _ => JsonValue.bool true))
    [mapP (stringP "false".data) (fun _ => JsonValue.bool false)])

/-- `numP`: a trimmed `doubleP` wrapped as a number. -/
def numP : Parser JsonValue :=
  trimP (mapP doubleP (fun x => JsonValue.num x))

/-- `escapeP`: one character after a backslash, with the source's switch
mapping escape codes to control characters and passing everything else
through unchanged. -/
def escapeP : Parser Char :=
  mapP idP (fun c =>
    if c = '0' then '\x00'
    else if c = 'b' then '\x08'
    else if c = 't' then '\t'
    else if c = 'n' then '\n'
    else if c = 'v' then '\x0b'
    else if c = 'f' then '\x0c'
    else if c = 'r' then '\x0d'
    else c)

/-- `escapeStrP`: a trimmed, double-quoted run of characters, each either a
backslash escape or any character other than `"`. -/
def escapeStrP : Parser (List Char) :=
  trimP (betweenP (charP '"') (charP '"')
    (mapP (manyP (orP (rightP (charP '\\') escapeP)
      [predP (fun c => c != '"')]))
      (fun cs => cs)))

/-- `strP`: a string literal wrapped as a JSON string. -/
def strP : Parser JsonValue :=
  mapP escapeStrP (fun s => JsonValue.str s)

/-- The body of `arrayP`, abstracted over the (lazily recursive) JSON value
parser: a nonempty comma-separated list of values, or the empty array. -/
def arrayBody (j : Parser JsonValue) : Parser JsonValue :=
  orP (andP j (manyP (rightP (charP ',') j))
    (fun x xs => JsonValue.array (x :: xs)))
    [pureP (JsonValue.array [])]

/-- `arrayP`, abstracted over the JSON value parser: the body between
square brackets, trimmed. -/
def arrayW (j : Parser JsonValue) : Parser JsonValue :=
  trimP (betweenP (charP '[') (charP ']') (arrayBody j))

/-- The key-value item of `objectP`: a string literal, a colon, a value. -/
def itemW (j : Parser JsonValue) : Parser (List Char × JsonValue) :=
  andP escapeStrP (rightP (charP ':') j) (fun k v => (k, v))

/-- The body of `objectP`: a nonempty comma-separated list of key-value
items folded into the map, or the empty object. -/
def objectBody (j : Parser JsonValue) : Parser JsonValue :=
  orP (andP (itemW j) (manyP (rightP (charP ',') (itemW j)))
    (fun x xs => JsonValue.object (buildMap (x :: xs))))
    [pureP (JsonValue.object [])]

/-- `objectP`, abstracted over the JSON value parser: the body between
curly braces, trimmed. -/
def objectW (j : Parser JsonValue) : Parser JsonValue :=
  trimP (betweenP (charP '\x7b') (charP '\x7d') (objectBody j))

/-- The fuel-indexed unrolling of the mutually recursive `jsonP`:
`orP(nullP, boolP, numP, strP, lazyP(arrayP), lazyP(objectP))`, where the
lazily recursive occurrences use one unit of fuel. Fuel exhaustion
(unreachable from `jsonP`, whose fuel exceeds the nesting depth any input
can force) is a failing parser. -/
def jsonF : Nat → Parser JsonValue
  | 0 => fun s => .failure ["recursion fuel exhausted"] s
  | n + 1 =>
    orP nullP
      [boolP, numP, strP,
        lazyP (fun _ => arrayW (jsonF n)),
        lazyP (fun _ => objectW (jsonF n))]

/-- `jsonP`: the JSON value parser, run with fuel larger than the input
length (brackets consumed before each recursive descent bound the nesting
depth by the input length). -/
def jsonP : Parser JsonValue := fun s => jsonF (s.s.length + 1) s

/-- The expectation labels of a result (empty for a success). -/
def ParseResult.errors {T : Type} : ParseResult T → List String
  | .success _ _ => []
  | .failure e _ => e

/-- A parser is progressive when every success strictly advances the
position, stays inside the same buffer and stays within its length. Every
character-consuming parser of the source is progressive; progressiveness is
what makes the source's `manyP` recursion terminate. -/
def Prog {T : Type} (p : Parser T) : Prop :=
  ∀ s v st, s.pos ≤ s.s.length → p s = .success v st →
    st.s = s.s ∧ s.pos < st.pos ∧ st.pos ≤ st.s.length

/-- A parser is bounded when, from any state whose position is inside the
buffer, the result's state keeps the same buffer and a position at most the
buffer length. -/
def Bounded {T : Type} (p : Parser T) : Prop :=
  ∀ s : ParseState, s.pos ≤ s.s.length →
    (p s).state.s = s.s ∧ (p s).state.pos ≤ s.s.length

/-- First-match lookup in an association list (the `std::map` find). -/
def mapFind (k : List Char) : List (List Char × JsonValue) → Option JsonValue
  | [] => none
  | (k1, v1) :: rest => if k = k1 then some v1 else mapFind k rest

/-- The value associated to `k` by the *last* occurrence of `k` in the
input list, if any. -/
def lastAssoc (xs : List (List Char × JsonValue)) (k : List Char) :
    Option JsonValue :=
  xs.foldl (fun acc kv => if kv.1 = k then some kv.2 else acc) none

/-- The key order of the object mapping, on entries. -/
def entLt (a b : List Char × JsonValue) : Prop := ltKey a.1 b.1 = true

/-- Deep embedding of the combinator language of the engine: a syntax tree
whose leaves are the primitives and whose nodes are the combinators, used
to state properties of *every* parser built from them. -/
inductive Comb : Type → Type 1 where
  | idC : Comb Char
  | eofC : Comb Bool
  | predC (f : Char → Bool) : Comb Char
  | charC (c : Char) : Comb Char
  | oneOfC (cs : List Char) : Comb Char
  | stringC (str : List Char) : Comb (List Char)
  | pureC {T : Type} (x : T) : Comb T
  | mapC {A B : Type} (p : Comb A) (f : A → B) : Comb B
  | orC {T : Type} (p q : Comb T) : Comb T
  | andC {A B C : Type} (pa : Comb A) (pb : Comb B) (f : A → B → C) : Comb C
  | leftC {A B : Type} (pa : Comb A) (pb : Comb B) : Comb A
  | rightC {A B : Type} (pa : Comb A) (pb : Comb B) : Comb B
  | manyC {T : Type} (p : Comb T) : Comb (List T)
  | someC {T : Type} (p : Comb T) : Comb (List T)
  | betweenC {A B C : Type} (lp : Comb A) (rp : Comb B) (p : Comb C) : Comb C
  | trimC {T : Type} (p : Comb T) : Comb T
  | lazyC {T : Type} (p : Comb T) : Comb T

/-- The parser denoted by a combinator tree, each node interpreted by the
corresponding definition of the engine (the variadic `orP` through its
binary instances, `lazyP` with the deferred parser as the thunk's value). -/
def denote : {T : Type} → Comb T → Parser T
  | _, .idC => idP
  | _, .eofC => eofP
  | _, .predC f => predP f
  | _, .charC c => charP c
  | _, .oneOfC cs => oneOfP cs
  | _, .stringC str => stringP str
  | _, .pureC x => pureP x
  | _, .mapC p f => mapP (denote p) f
  | _, .orC p q => orP (denote p) [denote q]
  | _, .andC pa pb f => andP (denote pa) (denote pb) f
  | _, .leftC pa pb => leftP (denote pa) (denote pb)
  | _, .rightC pa pb => rightP (denote pa) (denote pb)
  | _, .manyC p => manyP (denote p)
  | _, .someC p => someP (denote p)
  | _, .betweenC lp rp p => betweenP (denote lp) (denote rp) (denote p)
  | _, .trimC p => trimP (denote p)
  | _, .lazyC p => lazyP (fun _ => denote p)

theorem predP_run (f : Char → Bool) (s : ParseState) :
    predP f s = match idP s with
      | .failure e st => .failure e st
      | .success c st =>
        if f c then .success c st
        else .failure ["unexpect " ++ String.mk [c]] st := rfl

theorem predP_state (f : Char → Bool) (s : ParseState) :
    (predP f s).state = (idP s).state := by
  rw [predP_run]
  rcases h : idP s with ⟨c, st⟩ | ⟨e, st⟩
  · by_cases hf : f c <;> simp [hf, ParseResult.state]
  · simp [ParseResult.state]

theorem idP_at_end (s : ParseState) (h : s.pos = s.s.length) :
    idP s = .failure ["end of file"] s := by
  simp [idP, h]

theorem idP_mid (s : ParseState) (h : ¬ s.pos = s.s.length) :
    idP s = .success (s.s.getD s.pos ' ') ⟨s.pos + 1, s.s⟩ := by
  simp [idP, h]

theorem prog_predP (f : Char → Bool) : Prog (predP f) := by
  intro s v st hs h
  rw [predP_run] at h
  rcases hid : idP s with ⟨c, st1⟩ | ⟨e, st1⟩ <;> rw [hid] at h
  · by_cases hf : f c
    · simp only [if_pos hf] at h
      cases h
      by_cases he : s.pos = s.s.length
      · rw [idP_at_end s he] at hid
        cases hid
      · rw [idP_mid s he] at hid
        cases hid
        exact ⟨rfl, show s.pos < s.pos + 1 by omega,
          show s.pos + 1 ≤ s.s.length by omega⟩
    · simp [if_neg hf] at h
  · simp at h

theorem prog_charP (c : Char) : Prog (charP c) := prog_predP _

theorem prog_oneOfP (cs : List Char) : Prog (oneOfP cs) := prog_predP _

theorem orP_first_success {T : Type} (p : Parser T) (ps : List (Parser T))
    (s : ParseState) (v : T) (st : ParseState) (h : p s = .success v st) :
    orP p ps s = p s := by
  cases ps with
  | nil => rfl
  | cons q ps1 => simp [orP, h]

theorem orP_fail_step {T : Type} (p q : Parser T) (ps : List (Parser T))
    (s : ParseState) (e : List String) (st : ParseState)
    (h : p s = .failure e st) :
    orP p (q :: ps) s = orP q ps s := by
  simp [orP, h]

theorem orP_all_fail {T : Type} (s : ParseState) :
    ∀ (ps : List (Parser T)) (p : Parser T),
    (∀ r ∈ p :: ps, (r s).isSuccess = false) →
    orP p ps s = ((p :: ps).getLast (List.cons_ne_nil p ps)) s := by
  intro ps
  induction ps with
  | nil => intro p _; rfl
  | cons q ps1 ih =>
    intro p h
    have hp : (p s).isSuccess = false := h p (by simp)
    rcases hf : p s with ⟨v, st⟩ | ⟨e, st⟩
    · rw [hf] at hp; simp [ParseResult.isSuccess] at hp
    · rw [orP_fail_step p q ps1 s e st hf]
      rw [ih q (fun r hr => h r (by simp at hr ⊢; tauto))]
      congr 1

theorem manyRun_congr {T : Type} (p : Parser T) (hp : Prog p) :
    ∀ n m (s : ParseState), s.pos ≤ s.s.length →
    manyFuel s ≤ n → manyFuel s ≤ m →
    manyRun p n s = manyRun p m s := by
  intro n
  induction n with
  | zero =>
    intro m s hs hn _
    exfalso
    unfold manyFuel at hn
    omega
  | succ n ih =>
    intro m s hs hn hm
    cases m with
    | zero =>
      exfalso
      unfold manyFuel at hm
      omega
    | succ m1 =>
      rcases hr : p s with ⟨v, st⟩ | ⟨e, st⟩
      · obtain ⟨h1, h2, h3⟩ := hp s v st hs hr
        have h3' : st.pos ≤ s.s.length := by rw [h1] at h3; exact h3
        have hlt : manyFuel st < manyFuel s := by
          unfold manyFuel
          rw [h1]
          omega
        simp only [manyRun, hr]
        rw [ih m1 st (by rw [h1]; exact h3') (by omega) (by omega)]
      · simp only [manyRun, hr]

theorem manyRun_isSuccess {T : Type} (p : Parser T) :
    ∀ (n : Nat) (s : ParseState), (manyRun p n s).isSuccess = true := by
  intro n
  induction n with
  | zero => intro s; rfl
  | succ n ih =>
    intro s
    rcases hr : p s with ⟨v, s1⟩ | ⟨e, s1⟩
    · have hrec := ih s1
      rcases hm : manyRun p n s1 with ⟨vs, s2⟩ | ⟨e2, s2⟩
      · simp only [manyRun, hr, hm]
        rfl
      · rw [hm] at hrec
        simp [ParseResult.isSuccess] at hrec
    · simp only [manyRun, hr]
      rfl

theorem manyP_succeeds {T : Type} (p : Parser T) (s : ParseState) :
    (manyP p s).isSuccess = true := manyRun_isSuccess p (manyFuel s) s

theorem manyP_fail {T : Type} (p : Parser T) (s : ParseState) (e : List String)
    (st : ParseState) (h : p s = .failure e st) :
    manyP p s = .success [] s := by
  unfold manyP
  cases hf : manyFuel s with
  | zero => rfl
  | succ n => simp [manyRun, h]

theorem manyP_cons {T : Type} (p : Parser T) (hp : Prog p) (s : ParseState)
    (hs : s.pos ≤ s.s.length) (v : T) (st : ParseState)
    (h : p s = .success v st) (vs : List T) (st2 : ParseState)
    (h2 : manyP p st = .success vs st2) :
    manyP p s = .success (v :: vs) st2 := by
  obtain ⟨h1, hlt, hle⟩ := hp s v st hs h
  have hlt2 : manyFuel st < manyFuel s := by
    unfold manyFuel
    rw [h1]
    rw [h1] at hle
    omega
  have hfs : 1 ≤ manyFuel s := by
    unfold manyFuel
    omega
  rcases Nat.exists_eq_add_of_le hfs with ⟨n, hn⟩
  unfold manyP
  rw [show manyFuel s = n + 1 by omega]
  simp only [manyRun, h]
  rw [manyRun_congr p hp n (manyFuel st) st hle (by omega) (le_refl _)]
  unfold manyP at h2
  rw [h2]

theorem bounded_pureP {T : Type} (x : T) : Bounded (pureP x) := by
  intro s hs
  exact ⟨rfl, hs⟩

theorem bounded_idP : Bounded idP := by
  intro s hs
  unfold idP
  by_cases h : s.pos = s.s.length
  · simp [h, ParseResult.state]
  · simp only [if_neg h, ParseResult.state]
    exact ⟨by trivial, show s.pos + 1 ≤ s.s.length by omega⟩

theorem bounded_eofP : Bounded eofP := by
  intro s hs
  unfold eofP
  by_cases h : s.pos = s.s.length <;> simp [h, ParseResult.state, hs]

theorem bounded_predP (f : Char → Bool) : Bounded (predP f) := by
  intro s hs
  rw [predP_state]
  exact bounded_idP s hs

theorem bounded_charP (c : Char) : Bounded (charP c) := bounded_predP _

theorem bounded_oneOfP (cs : List Char) : Bounded (oneOfP cs) :=
  bounded_predP _

theorem bounded_mapP {A B : Type} (p : Parser A) (f : A → B) (h : Bounded p) :
    Bounded (mapP p f) := by
  intro s hs
  have hp := h s hs
  unfold mapP
  rcases hr : p s with ⟨v, st⟩ | ⟨e, st⟩ <;> rw [hr] at hp <;>
    simpa [ParseResult.state] using hp

theorem bounded_andP {A B C : Type} (pa : Parser A) (pb : Parser B)
    (f : A → B → C) (ha : Bounded pa) (hb : Bounded pb) :
    Bounded (andP pa pb f) := by
  intro s hs
  have hpa := ha s hs
  unfold andP
  rcases hra : pa s with ⟨ra, sa⟩ | ⟨e, st⟩ <;> rw [hra] at hpa <;>
    simp only [ParseResult.state] at hpa
  · have hsa : sa.pos ≤ sa.s.length := by rw [hpa.1]; exact hpa.2
    have hpb := hb sa hsa
    rcases hrb : pb sa with ⟨rb, sb⟩ | ⟨e2, st2⟩ <;> rw [hrb] at hpb <;>
      simp only [ParseResult.state] at hpb <;>
      simp only [hra, hrb, ParseResult.state] <;>
      exact ⟨by rw [hpb.1, hpa.1], by rw [← hpa.1]; exact hpb.2⟩
  · simp only [hra, ParseResult.state]
    exact hpa

theorem bounded_leftP {A B : Type} (pa : Parser A) (pb : Parser B)
    (ha : Bounded pa) (hb : Bounded pb) : Bounded (leftP pa pb) :=
  bounded_andP _ _ _ ha hb

theorem bounded_rightP {A B : Type} (pa : Parser A) (pb : Parser B)
    (ha : Bounded pa) (hb : Bounded pb) : Bounded (rightP pa pb) :=
  bounded_andP _ _ _ ha hb

theorem bounded_orP {T : Type} (p : Parser T) (ps : List (Parser T))
    (hp : Bounded p) (hps : ∀ q ∈ ps, Bounded q) : Bounded (orP p ps) := by
  induction ps generalizing p with
  | nil => exact hp
  | cons q ps1 ih =>
    intro s hs
    rcases hr : p s with ⟨v, st⟩ | ⟨e, st⟩
    · rw [orP_first_success p (q :: ps1) s v st hr]
      exact hp s hs
    · rw [orP_fail_step p q ps1 s e st hr]
      exact ih q (hps q (by simp)) (fun r hr1 => hps r (by simp [hr1])) s hs

theorem bounded_manyRun {T : Type} (p : Parser T) (hp : Bounded p) :
    ∀ (n : Nat) (s : ParseState), s.pos ≤ s.s.length →
    (manyRun p n s).state.s = s.s ∧ (manyRun p n s).state.pos ≤ s.s.length := by
  intro n
  induction n with
  | zero => intro s hs; exact ⟨rfl, hs⟩
  | succ n ih =>
    intro s hs
    rcases hr : p s with ⟨v, st⟩ | ⟨e, st⟩
    · have hb := hp s hs
      rw [hr] at hb
      simp only [ParseResult.state] at hb
      have hst : st.pos ≤ st.s.length := by rw [hb.1]; exact hb.2
      have hrec := ih st hst
      rcases hm : manyRun p n st with ⟨vs, s2⟩ | ⟨e2, s2⟩ <;>
        rw [hm] at hrec <;> simp only [ParseResult.state] at hrec <;>
        simp only [manyRun, hr, hm, ParseResult.state] <;>
        exact ⟨by rw [hrec.1, hb.1], by rw [← hb.1]; exact hrec.2⟩
    · simp only [manyRun, hr, ParseResult.state]
      exact ⟨by trivial, hs⟩

theorem bounded_manyP {T : Type} (p : Parser T) (hp : Bounded p) :
    Bounded (manyP p) := by
  intro s hs
  have := bounded_manyRun p hp (manyFuel s) s hs
  unfold manyP
  exact this

theorem bounded_someP {T : Type} (p : Parser T) (hp : Bounded p) :
    Bounded (someP p) :=
  bounded_andP _ _ _ hp (bounded_manyP p hp)

theorem bounded_stringP (str : List Char) : Bounded (stringP str) := by
  induction str with
  | nil => intro s hs; exact ⟨rfl, hs⟩
  | cons c cs ih =>
    intro s hs
    have hc := bounded_charP c s hs
    unfold stringP
    rcases hr : charP c s with ⟨v, st⟩ | ⟨e, st⟩ <;> rw [hr] at hc <;>
      simp only [ParseResult.state] at hc
    · have hst : st.pos ≤ st.s.length := by rw [hc.1]; exact hc.2
      have hrest := ih st hst
      rcases hr2 : stringP cs st with ⟨v2, st2⟩ | ⟨e2, st2⟩ <;>
        rw [hr2] at hrest <;> simp only [ParseResult.state] at hrest <;>
        simp only [hr, hr2, ParseResult.state] <;>
        exact ⟨by rw [hrest.1, hc.1], by rw [← hc.1]; exact hrest.2⟩
    · simp only [hr, ParseResult.state]
      exact hc

theorem bounded_spaces : Bounded spaces :=
  bounded_manyP _ (bounded_oneOfP _)

theorem bounded_betweenP {A B C : Type} (lp : Parser A) (rp : Parser B)
    (p : Parser C) (hl : Bounded lp) (hr : Bounded rp) (hp : Bounded p) :
    Bounded (betweenP lp rp p) :=
  bounded_rightP _ _ hl (bounded_leftP _ _ hp hr)

theorem bounded_trimP {T : Type} (p : Parser T) (hp : Bounded p) :
    Bounded (trimP p) :=
  bounded_rightP _ _ bounded_spaces (bounded_leftP _ _ hp bounded_spaces)

theorem bounded_lazyP {T : Type} (f : Unit → Parser T)
    (hf : Bounded (f ())) : Bounded (lazyP f) := hf

theorem bounded_digitP : Bounded digitP :=
  bounded_mapP _ _ (bounded_predP _)

theorem bounded_natP : Bounded natP :=
  bounded_mapP _ _ (bounded_someP _ bounded_digitP)

theorem bounded_intP : Bounded intP :=
  bounded_orP _ _
    (bounded_mapP _ _ (bounded_rightP _ _ (bounded_charP _) bounded_natP))
    (by
      intro q hq
      simp at hq
      rw [hq]
      exact bounded_natP)

theorem bounded_doubleP : Bounded doubleP :=
  bounded_orP _ _
    (bounded_andP _ _ _ bounded_intP
      (bounded_rightP _ _ (bounded_charP _)
        (bounded_mapP _ _ (bounded_someP _ bounded_digitP))))
    (by
      intro q hq
      simp at hq
      rw [hq]
      exact bounded_mapP _ _ bounded_intP)

theorem bounded_nullP : Bounded nullP :=
  bounded_trimP _ (bounded_mapP _ _ (bounded_stringP _))

theorem bounded_boolP : Bounded boolP :=
  bounded_trimP _ (bounded_orP _ _
    (bounded_mapP _ _ (bounded_stringP _))
    (by
      intro q hq
      simp at hq
      rw [hq]
      exact bounded_mapP _ _ (bounded_stringP _)))

theorem bounded_numP : Bounded numP :=
  bounded_trimP _ (bounded_mapP _ _ bounded_doubleP)

theorem bounded_escapeP : Bounded escapeP :=
  bounded_mapP _ _ bounded_idP

theorem bounded_escapeStrP : Bounded escapeStrP :=
  bounded_trimP _ (bounded_betweenP _ _ _ (bounded_charP _) (bounded_charP _)
    (bounded_mapP _ _ (bounded_manyP _ (bounded_orP _ _
      (bounded_rightP _ _ (bounded_charP _) bounded_escapeP)
      (by
        intro q hq
        simp at hq
        rw [hq]
        exact bounded_predP _)))))

theorem bounded_strP : Bounded strP :=
  bounded_mapP _ _ bounded_escapeStrP

theorem bounded_arrayW (j : Parser JsonValue) (hj : Bounded j) :
    Bounded (arrayW j) :=
  bounded_trimP _ (bounded_betweenP _ _ _ (bounded_charP _) (bounded_charP _)
    (bounded_orP _ _
      (bounded_andP _ _ _ hj
        (bounded_manyP _ (bounded_rightP _ _ (bounded_charP _) hj)))
      (by
        intro q hq
        simp at hq
        rw [hq]
        exact bounded_pureP _)))

theorem bounded_itemW (j : Parser JsonValue) (hj : Bounded j) :
    Bounded (itemW j) :=
  bounded_andP _ _ _ bounded_escapeStrP
    (bounded_rightP _ _ (bounded_charP _) hj)

theorem bounded_objectW (j : Parser JsonValue) (hj : Bounded j) :
    Bounded (objectW j) :=
  bounded_trimP _ (bounded_betweenP _ _ _ (bounded_charP _) (bounded_charP _)
    (bounded_orP _ _
      (bounded_andP _ _ _ (bounded_itemW j hj)
        (bounded_manyP _ (bounded_rightP _ _ (bounded_charP _)
          (bounded_itemW j hj))))
      (by
        intro q hq
        simp at hq
        rw [hq]
        exact bounded_pureP _)))

theorem bounded_jsonF : ∀ n : Nat, Bounded (jsonF n) := by
  intro n
  induction n with
  | zero => intro s hs; exact ⟨rfl, hs⟩
  | succ n ih =>
    refine bounded_orP _ _ bounded_nullP ?_
    intro q hq
    simp [jsonF] at hq
    rcases hq with hq | hq | hq | hq | hq <;> rw [hq]
    · exact bounded_boolP
    · exact bounded_numP
    · exact bounded_strP
    · exact bounded_arrayW _ (ih)
    · exact bounded_objectW _ (ih)

theorem bounded_jsonP : Bounded jsonP := by
  intro s hs
  exact bounded_jsonF (s.s.length + 1) s hs

theorem bounded_denote : ∀ {T : Type} (c : Comb T), Bounded (denote c) := by
  intro T c
  induction c with
  | idC => exact bounded_idP
  | eofC => exact bounded_eofP
  | predC f => exact bounded_predP f
  | charC c => exact bounded_charP c
  | oneOfC cs => exact bounded_oneOfP cs
  | stringC str => exact bounded_stringP str
  | pureC x => exact bounded_pureP x
  | mapC p f ih => exact bounded_mapP _ _ ih
  | orC p q ihp ihq =>
    refine bounded_orP _ _ ihp ?_
    intro r hr
    simp at hr
    rw [hr]
    exact ihq
  | andC pa pb f iha ihb => exact bounded_andP _ _ _ iha ihb
  | leftC pa pb iha ihb => exact bounded_leftP _ _ iha ihb
  | rightC pa pb iha ihb => exact bounded_rightP _ _ iha ihb
  | manyC p ih => exact bounded_manyP _ ih
  | someC p ih => exact bounded_someP _ ih
  | betweenC lp rp p ihl ihr ihp => exact bounded_betweenP _ _ _ ihl ihr ihp
  | trimC p ih => exact bounded_trimP _ ih
  | lazyC p ih => exact ih

theorem charEqOfToNat (c d : Char) (h : c.toNat = d.toNat) : c = d :=
  Char.eq_of_val_eq (UInt32.ext h)

theorem ltKey_irrefl : ∀ a, ltKey a a = false := by
  intro a
  induction a with
  | nil => rfl
  | cons c cs ih => simp [ltKey, ih]

theorem ltKey_trans : ∀ a b c, ltKey a b = true → ltKey b c = true →
    ltKey a c = true := by
  intro a
  induction a with
  | nil =>
    intro b c h1 h2
    cases b with
    | nil => simp [ltKey] at h1
    | cons d ds =>
      cases c with
      | nil => simp [ltKey] at h2
      | cons e es => simp [ltKey]
  | cons x xs ih =>
    intro b c h1 h2
    cases b with
    | nil => simp [ltKey] at h1
    | cons d ds =>
      cases c with
      | nil => simp [ltKey] at h2
      | cons e es =>
        simp only [ltKey] at h1 h2 ⊢
        by_cases hxd : x.toNat < d.toNat
        · by_cases hde : d.toNat < e.toNat
          · rw [if_pos (show x.toNat < e.toNat by omega)]
          · rw [if_neg hde] at h2
            by_cases hed : e.toNat < d.toNat
            · rw [if_pos hed] at h2
              exact absurd h2 (by simp)
            · rw [if_pos (show x.toNat < e.toNat by omega)]
        · rw [if_neg hxd] at h1
          by_cases hdx : d.toNat < x.toNat
          · rw [if_pos hdx] at h1
            exact absurd h1 (by simp)
          · rw [if_neg hdx] at h1
            by_cases hde : d.toNat < e.toNat
            · rw [if_pos (show x.toNat < e.toNat by omega)]
            · rw [if_neg hde] at h2
              by_cases hed : e.toNat < d.toNat
              · rw [if_pos hed] at h2
                exact absurd h2 (by simp)
              · rw [if_neg hed] at h2
                rw [if_neg (show ¬ x.toNat < e.toNat by omega),
                  if_neg (show ¬ e.toNat < x.toNat by omega)]
                exact ih ds es h1 h2

theorem ltKey_antisymm_eq : ∀ a b, ltKey a b = false → ltKey b a = false →
    a = b := by
  intro a
  induction a with
  | nil =>
    intro b h1 _
    cases b with
    | nil => rfl
    | cons d ds => simp [ltKey] at h1
  | cons x xs ih =>
    intro b h1 h2
    cases b with
    | nil => simp [ltKey] at h2
    | cons d ds =>
      simp only [ltKey] at h1 h2
      by_cases hxd : x.toNat < d.toNat
      · rw [if_pos hxd] at h1
        exact absurd h1 (by simp)
      · rw [if_neg hxd] at h1
        by_cases hdx : d.toNat < x.toNat
        · rw [if_pos hdx] at h2
          exact absurd h2 (by simp)
        · rw [if_neg hdx] at h1
          rw [if_neg hdx, if_neg hxd] at h2
          rw [charEqOfToNat x d (by omega), ih ds h1 h2]

theorem mapInsert_mem : ∀ (m : List (List Char × JsonValue)) k v x,
    x ∈ mapInsert k v m → x = (k, v) ∨ x ∈ m := by
  intro m
  induction m with
  | nil =>
    intro k v x hx
    simp [mapInsert] at hx
    exact Or.inl hx
  | cons kv1 rest ih =>
    intro k v x hx
    obtain ⟨k1, v1⟩ := kv1
    simp only [mapInsert] at hx
    by_cases h1 : ltKey k k1 = true
    · rw [if_pos h1] at hx
      simp only [List.mem_cons] at hx
      rcases hx with hx | hx | hx
      · exact Or.inl hx
      · exact Or.inr (by simp [hx])
      · exact Or.inr (by simp [hx])
    · rw [if_neg h1] at hx
      by_cases h2 : ltKey k1 k = true
      · rw [if_pos h2] at hx
        simp only [List.mem_cons] at hx
        rcases hx with hx | hx
        · exact Or.inr (by simp [hx])
        · rcases ih k v x hx with hx | hx
          · exact Or.inl hx
          · exact Or.inr (by simp [hx])
      · rw [if_neg h2] at hx
        simp only [List.mem_cons] at hx
        rcases hx with hx | hx
        · exact Or.inl hx
        · exact Or.inr (by simp [hx])

theorem mapInsert_pairwise :
    ∀ (m : List (List Char × JsonValue)) k v,
    List.Pairwise entLt m → List.Pairwise entLt (mapInsert k v m) := by
  intro m
  induction m with
  | nil =>
    intro k v _
    simp [mapInsert]
  | cons kv1 rest ih =>
    intro k v hp
    obtain ⟨k1, v1⟩ := kv1
    rw [List.pairwise_cons] at hp
    obtain ⟨h1, h2⟩ := hp
    simp only [mapInsert]
    by_cases hlt : ltKey k k1 = true
    · rw [if_pos hlt]
      rw [List.pairwise_cons]
      constructor
      · intro x hx
        simp only [List.mem_cons] at hx
        rcases hx with hx | hx
        · rw [hx]
          exact hlt
        · exact ltKey_trans k k1 x.1 hlt (h1 x hx)
      · rw [List.pairwise_cons]
        exact ⟨h1, h2⟩
    · rw [if_neg hlt]
      by_cases hgt : ltKey k1 k = true
      · rw [if_pos hgt]
        rw [List.pairwise_cons]
        constructor
        · intro x hx
          rcases mapInsert_mem rest k v x hx with hx | hx
          · rw [hx]
            exact hgt
          · exact h1 x hx
        · exact ih k v h2
      · rw [if_neg hgt]
        have hk : k = k1 :=
          ltKey_antisymm_eq k k1 (by simpa using hlt) (by simpa using hgt)
        rw [List.pairwise_cons]
        constructor
        · intro x hx
          have := h1 x hx
          unfold entLt at this ⊢
          rw [hk]
          exact this
        · exact h2

theorem buildMap_pairwise_aux :
    ∀ (xs : List (List Char × JsonValue)) (m : List (List Char × JsonValue)),
    List.Pairwise entLt m →
    List.Pairwise entLt (xs.foldl (fun m kv => mapInsert kv.1 kv.2 m) m) := by
  intro xs
  induction xs with
  | nil => intro m hm; exact hm
  | cons kv rest ih =>
    intro m hm
    exact ih (mapInsert kv.1 kv.2 m) (mapInsert_pairwise m kv.1 kv.2 hm)

theorem buildMap_pairwise (xs : List (List Char × JsonValue)) :
    List.Pairwise entLt (buildMap xs) :=
  buildMap_pairwise_aux xs [] (by simp)

theorem mapFind_insert_self :
    ∀ (m : List (List Char × JsonValue)) k v,
    mapFind k (mapInsert k v m) = some v := by
  intro m
  induction m with
  | nil => intro k v; simp [mapInsert, mapFind]
  | cons kv1 rest ih =>
    intro k v
    obtain ⟨k1, v1⟩ := kv1
    simp only [mapInsert]
    by_cases hlt : ltKey k k1 = true
    · rw [if_pos hlt]
      simp [mapFind]
    · rw [if_neg hlt]
      by_cases hgt : ltKey k1 k = true
      · rw [if_pos hgt]
        have hne : ¬ k = k1 := by
          intro h
          rw [h] at hgt
          rw [ltKey_irrefl] at hgt
          exact absurd hgt (by simp)
        simp only [mapFind, if_neg hne]
        exact ih k v
      · rw [if_neg hgt]
        simp [mapFind]

theorem mapFind_insert_ne :
    ∀ (m : List (List Char × JsonValue)) k v k2, k2 ≠ k →
    mapFind k2 (mapInsert k v m) = mapFind k2 m := by
  intro m
  induction m with
  | nil =>
    intro k v k2 hne
    simp [mapInsert, mapFind, hne]
  | cons kv1 rest ih =>
    intro k v k2 hne
    obtain ⟨k1, v1⟩ := kv1
    simp only [mapInsert]
    by_cases hlt : ltKey k k1 = true
    · rw [if_pos hlt]
      simp only [mapFind, if_neg hne]
    · rw [if_neg hlt]
      by_cases hgt : ltKey k1 k = true
      · rw [if_pos hgt]
        by_cases h2 : k2 = k1
        · simp only [mapFind, if_pos h2]
        · simp only [mapFind, if_neg h2]
          exact ih k v k2 hne
      · rw [if_neg hgt]
        have hk : k = k1 :=
          ltKey_antisymm_eq k k1 (by simpa using hlt) (by simpa using hgt)
        have h2 : ¬ k2 = k1 := by rw [← hk]; exact hne
        simp only [mapFind, if_neg hne, if_neg h2]

theorem buildMap_find_aux :
    ∀ (xs : List (List Char × JsonValue)) (m : List (List Char × JsonValue))
    (k : List Char),
    mapFind k (xs.foldl (fun m kv => mapInsert kv.1 kv.2 m) m) =
      xs.foldl (fun acc kv => if kv.1 = k then some kv.2 else acc)
        (mapFind k m) := by
  intro xs
  induction xs with
  | nil => intro m k; rfl
  | cons kv rest ih =>
    intro m k
    simp only [List.foldl_cons]
    rw [ih (mapInsert kv.1 kv.2 m) k]
    congr 1
    by_cases h : kv.1 = k
    · rw [if_pos h, ← h]
      exact mapFind_insert_self m kv.1 kv.2
    · rw [if_neg h]
      exact mapFind_insert_ne m kv.1 kv.2 k (fun hh => h hh.symm)

theorem buildMap_find (xs : List (List Char × JsonValue)) (k : List Char) :
    mapFind k (buildMap xs) = lastAssoc xs k :=
  buildMap_find_aux xs [] k

/-- C1 counterexample: at input `"a"`, position 0, with a predicate
rejecting `'a'`, `predP` fails but the failure's state is not the
pre-consumption state: its position is 1, not 0. -/
theorem pred_failure_state_counterexample :
    (predP (fun c => c == 'b') ⟨0, "a".data⟩).isSuccess = false ∧
    (predP (fun c => c == 'b') ⟨0, "a".data⟩).state ≠
      (⟨0, "a".data⟩ : ParseState) := by
  decide

/-- C1 (amended): for every state with position strictly inside the input
and every predicate the character there fails, `predP` returns a Failure
whose state is the *post-consumption* state — position advanced one past
the consumed character — not the pre-consumption state. -/
theorem pred_failure_state_advanced (f : Char → Bool) (s : ParseState)
    (hlt : s.pos < s.s.length) (hf : f (s.s.getD s.pos ' ') = false) :
    predP f s =
      .failure ["unexpect " ++ String.mk [s.s.getD s.pos ' ']]
        ⟨s.pos + 1, s.s⟩ := by
  have h1 : idP s = .success (s.s.getD s.pos ' ') ⟨s.pos + 1, s.s⟩ :=
    idP_mid s (by omega)
  rw [predP_run, h1]
  simp only [hf]
  rfl

/-- C1 witness: the amended statement at the concrete counterexample
input. -/
theorem pred_failure_state_advanced_witness :
    predP (fun c => c == 'b') ⟨0, "a".data⟩ =
      .failure ["unexpect " ++ String.mk ['a']] ⟨1, "a".data⟩ :=
  pred_failure_state_advanced (fun c => c == 'b') ⟨0, "a".data⟩
    (by decide) (by decide)

/-- C2: the variadic `orP` runs every branch on the same original state,
returns the first succeeding branch's result unchanged (later branches are
not consulted), and when every branch fails it returns the result of the
last branch, run on the original state. -/
theorem orP_branches_correct {T : Type} (p : Parser T)
    (ps : List (Parser T)) (s : ParseState) :
    (∀ v st, p s = .success v st → orP p ps s = p s) ∧
    (∀ q ps1 e st, ps = q :: ps1 → p s = .failure e st →
      orP p ps s = orP q ps1 s) ∧
    ((∀ r ∈ p :: ps, (r s).isSuccess = false) →
      orP p ps s = ((p :: ps).getLast (List.cons_ne_nil p ps)) s) := by
  refine ⟨?_, ?_, ?_⟩
  · intro v st h
    exact orP_first_success p ps s v st h
  · intro q ps1 e st hps h
    rw [hps]
    exact orP_fail_step p q ps1 s e st h
  · intro h
    exact orP_all_fail s ps p h

/-- C2 witness: the first-success conjunct at a concrete choice. -/
theorem orP_branches_correct_witness :
    orP (charP 'a') [charP 'b'] ⟨0, "a".data⟩ = charP 'a' ⟨0, "a".data⟩ :=
  (orP_branches_correct (charP 'a') [charP 'b'] ⟨0, "a".data⟩).1 'a'
    ⟨1, "a".data⟩ (by decide)

/-- C3: for a repeated parser that strictly advances on success (the
termination condition of the source's recursion), `manyP` always returns a
Success; an immediately failing `p` yields the empty list with the incoming
state unchanged, and a success of `p` prepends its value to the repetition
continued from the state `p` produced, so the final state is the one
reached just before the first failing attempt. -/
theorem many_repetition_correct {T : Type} (p : Parser T) (hp : Prog p)
    (s : ParseState) (hs : s.pos ≤ s.s.length) :
    (manyP p s).isSuccess = true ∧
    (∀ e st, p s = .failure e st → manyP p s = .success [] s) ∧
    (∀ v st vs st2, p s = .success v st → manyP p st = .success vs st2 →
      manyP p s = .success (v :: vs) st2) := by
  refine ⟨manyP_succeeds p s, ?_, ?_⟩
  · intro e st h
    exact manyP_fail p s e st h
  · intro v st vs st2 h h2
    exact manyP_cons p hp s hs v st h vs st2 h2

/-- C3 witness: repetition of a single character parser on `"ab"`. -/
theorem many_repetition_correct_witness :
    (manyP (charP 'a') ⟨0, "ab".data⟩).isSuccess = true :=
  (many_repetition_correct (charP 'a') (prog_charP 'a') ⟨0, "ab".data⟩
    (by decide)).1

set_option maxHeartbeats 3200000 in
/-- C4: the object fold produces a key-sorted mapping (adjacent keys
strictly increasing) in which looking up any key yields the value of its
last occurrence in input order; the example object parses to the mapping
`abc` to 1, `xyz` to 2 (the fraction `⟨n, d⟩` is the rational `n / d`)
independently of the key order in the input text, and a duplicate key
collapses to its last occurrence. -/
theorem object_sorted_last_wins :
    (∀ xs : List (List Char × JsonValue),
      List.Pairwise entLt (buildMap xs) ∧
      ∀ k, mapFind k (buildMap xs) = lastAssoc xs k) ∧
    parse jsonP "\x7b\"xyz\": 2, \"abc\": 1\x7d".data =
      .success (JsonValue.object
        [("abc".data, JsonValue.num ⟨1, 1⟩),
          ("xyz".data, JsonValue.num ⟨2, 1⟩)])
        ⟨20, "\x7b\"xyz\": 2, \"abc\": 1\x7d".data⟩ ∧
    parse jsonP "\x7b\"abc\": 1, \"xyz\": 2\x7d".data =
      .success (JsonValue.object
        [("abc".data, JsonValue.num ⟨1, 1⟩),
          ("xyz".data, JsonValue.num ⟨2, 1⟩)])
        ⟨20, "\x7b\"abc\": 1, \"xyz\": 2\x7d".data⟩ ∧
    parse jsonP "\x7b\"a\": 1, \"a\": 2\x7d".data =
      .success (JsonValue.object [("a".data, JsonValue.num ⟨2, 1⟩)])
        ⟨16, "\x7b\"a\": 1, \"a\": 2\x7d".data⟩ := by
  exact ⟨fun xs => ⟨buildMap_pairwise xs, fun k => buildMap_find xs k⟩,
    rfl, rfl, rfl⟩

/-- C5: a comma inside an array must be followed by another JSON value:
`[1]` and `[1,2]` parse, `[1,]` and `[1,2,]` are rejected. -/
theorem array_trailing_comma_rejected :
    (parse jsonP "[1]".data).isSuccess = true ∧
    (parse jsonP "[1,]".data).isSuccess = false ∧
    (parse jsonP "[1,2]".data).isSuccess = true ∧
    (parse jsonP "[1,2,]".data).isSuccess = false :=
  ⟨rfl, rfl, rfl, rfl⟩

/-- C6: `intP` on `"-25"` succeeds with `-25`, and `doubleP` on `"12.25"`
succeeds with the exact rational `49 / 4 = 12.25` (the fold computation is
exact over rationals). -/
theorem numeric_round_trip :
    parse intP "-25".data = .success (-25) ⟨3, "-25".data⟩ ∧
    parse doubleP "12.25".data =
      .success (⟨49, 4⟩ : Frac) ⟨5, "12.25".data⟩ := by
  decide

/-- C7 counterexample: the expectation label produced by a failing
`predP` at `"a"` is `"unexpect a"`, not `"unexpected a"`. -/
theorem pred_label_counterexample :
    (predP (fun c => c == 'b') ⟨0, "a".data⟩).errors = ["unexpect a"] ∧
    (predP (fun c => c == 'b') ⟨0, "a".data⟩).errors ≠ ["unexpected a"] := by
  decide

/-- C7 (amended): when the character at the state fails the predicate, the
Failure carries exactly the single label `"unexpect <c>"` — the word
`unexpect` (not `unexpected`), a space, and the offending character. -/
theorem pred_label_unexpect (f : Char → Bool) (s : ParseState)
    (hlt : s.pos < s.s.length) (hf : f (s.s.getD s.pos ' ') = false) :
    (predP f s).errors =
      ["unexpect " ++ String.mk [s.s.getD s.pos ' ']] := by
  have h1 : idP s = .success (s.s.getD s.pos ' ') ⟨s.pos + 1, s.s⟩ :=
    idP_mid s (by omega)
  rw [predP_run, h1]
  simp only [hf]
  rfl

/-- C7 witness: the amended statement at the concrete counterexample
input. -/
theorem pred_label_unexpect_witness :
    (predP (fun c => c == 'b') ⟨0, "a".data⟩).errors =
      ["unexpect " ++ String.mk ['a']] :=
  pred_label_unexpect (fun c => c == 'b') ⟨0, "a".data⟩
    (by decide) (by decide)

/-- C8: every parser built from the engine's primitives and combinators
(the deep embedding `Comb`), and the JSON value parser itself, keeps the
result state — of successes and failures alike — inside the input: the
buffer is unchanged and `0 ≤ position ≤ length(input)`. -/
theorem parser_positions_bounded :
    (∀ (T : Type) (c : Comb T) (s : ParseState), s.pos ≤ s.s.length →
      ((denote c) s).state.s = s.s ∧ 0 ≤ ((denote c) s).state.pos ∧
      ((denote c) s).state.pos ≤ s.s.length) ∧
    (∀ s : ParseState, s.pos ≤ s.s.length →
      (jsonP s).state.s = s.s ∧ 0 ≤ (jsonP s).state.pos ∧
      (jsonP s).state.pos ≤ s.s.length) := by
  constructor
  · intro T c s hs
    have h := bounded_denote c s hs
    exact ⟨h.1, Nat.zero_le _, h.2⟩
  · intro s hs
    have h := bounded_jsonP s hs
    exact ⟨h.1, Nat.zero_le _, h.2⟩

/-- C8 witness: the bound at `idC` on input `"a"` from position 0. -/
theorem parser_positions_bounded_witness :
    ((denote Comb.idC) ⟨0, "a".data⟩).state.s =
      (⟨0, "a".data⟩ : ParseState).s ∧
    0 ≤ ((denote Comb.idC) ⟨0, "a".data⟩).state.pos ∧
    ((denote Comb.idC) ⟨0, "a".data⟩).state.pos ≤
      (⟨0, "a".data⟩ : ParseState).s.length :=
  parser_positions_bounded.1 Char Comb.idC ⟨0, "a".data⟩ (by decide)

/-- C9: the JSON parser does not require the whole input: `"null x"` and
`"true ]]"` parse to `Null` and `Bool true` with trailing text left
unconsumed (final position strictly below the input length). -/
theorem json_prefix_parse :
    parse jsonP "null x".data =
      .success JsonValue.null ⟨5, "null x".data⟩ ∧
    (5 : Nat) < "null x".data.length ∧
    parse jsonP "true ]]".data =
      .success (JsonValue.bool true) ⟨5, "true ]]".data⟩ ∧
    (5 : Nat) < "true ]]".data.length :=
  ⟨rfl, by decide, rfl, by decide⟩

/-- C10: `doubleP` on `"-12.25"` adds the positive fractional part to the
negated integer part: the result is `-47 / 4 = -11.75`, not
`-49 / 4 = -12.25`. -/
theorem negative_decimal_fraction_added :
    parse doubleP "-12.25".data =
      .success (⟨-47, 4⟩ : Frac) ⟨6, "-12.25".data⟩ ∧
    (⟨-47, 4⟩ : Frac) ≠ (⟨-49, 4⟩ : Frac) := by
  decide
